import Mathlib

/-!
# Proof-of-work mining in `block.go`

A shallow embedding of the mining code of `block.go` (header encoding, target,
worker loop, range splitting and the goroutine protocol between `Run`,
`getHash` and `getHashChild`), followed by theorems about it.

Conventions of the embedding:

* a byte is a natural number below 256, a `[]byte` is a `List Nat`;
* Go's `int` is 64 bits wide (the program only compiles where `math.MaxInt64`
  fits an `int`); an `int`/`int64` is an `Int`, and every operation that can
  overflow is wrapped by `wrap64`;
* a `*big.Int` is an `Int`;
* goroutines are modelled by a transition system: a state records the program
  counter and locals of every goroutine plus the channels, and `step` runs one
  atomic action of one goroutine.
-/

namespace Blockchain

/-! ## Library functions used by the program -/

/-- Two's complement wrap-around of a 64-bit signed integer. -/
def wrap64 (x : Int) : Int := (x + 2 ^ 63) % 2 ^ 64 - 2 ^ 63

/-- Round constants of SHA-256 (FIPS 180-4). -/
def K256 : List Nat :=
  [0x428a2f98, 0x71374491, 0xb5c0fbcf, 0xe9b5dba5, 0x3956c25b, 0x59f111f1,
   0x923f82a4, 0xab1c5ed5, 0xd807aa98, 0x12835b01, 0x243185be, 0x550c7dc3,
   0x72be5d74, 0x80deb1fe, 0x9bdc06a7, 0xc19bf174, 0xe49b69c1, 0xefbe4786,
   0x0fc19dc6, 0x240ca1cc, 0x2de92c6f, 0x4a7484aa, 0x5cb0a9dc, 0x76f988da,
   0x983e5152, 0xa831c66d, 0xb00327c8, 0xbf597fc7, 0xc6e00bf3, 0xd5a79147,
   0x06ca6351, 0x14292967, 0x27b70a85, 0x2e1b2138, 0x4d2c6dfc, 0x53380d13,
   0x650a7354, 0x766a0abb, 0x81c2c92e, 0x92722c85, 0xa2bfe8a1, 0xa81a664b,
   0xc24b8b70, 0xc76c51a3, 0xd192e819, 0xd6990624, 0xf40e3585, 0x106aa070,
   0x19a4c116, 0x1e376c08, 0x2748774c, 0x34b0bcb5, 0x391c0cb3, 0x4ed8aa4a,
   0x5b9cca4f, 0x682e6ff3, 0x748f82ee, 0x78a5636f, 0x84c87814, 0x8cc70208,
   0x90befffa, 0xa4506ceb, 0xbef9a3f7, 0xc67178f2]

/-- Initial hash value of SHA-256. -/
def H256 : List Nat :=
  [0x6a09e667, 0xbb67ae85, 0x3c6ef372, 0xa54ff53a, 0x510e527f, 0x9b05688c,
   0x1f83d9ab, 0x5be0cd19]

/-- Rotate a 32-bit word right. -/
def rotr (x n : Nat) : Nat := ((x >>> n) ||| (x <<< (32 - n))) % 2 ^ 32

def bsig0 (x : Nat) : Nat := rotr x 2 ^^^ rotr x 13 ^^^ rotr x 22

def bsig1 (x : Nat) : Nat := rotr x 6 ^^^ rotr x 11 ^^^ rotr x 25

def ssig0 (x : Nat) : Nat := rotr x 7 ^^^ rotr x 18 ^^^ (x >>> 3)

def ssig1 (x : Nat) : Nat := rotr x 17 ^^^ rotr x 19 ^^^ (x >>> 10)

def ch (x y z : Nat) : Nat := (x &&& y) ^^^ ((x ^^^ 0xffffffff) &&& z)

def maj (x y z : Nat) : Nat := (x &&& y) ^^^ (x &&& z) ^^^ (y &&& z)

/-- Big-endian bytes of a 32-bit word. -/
def be32 (x : Nat) : List Nat :=
  [x >>> 24 % 256, x >>> 16 % 256, x >>> 8 % 256, x % 256]

/-- Message padding: a 1 bit, zeros up to 56 mod 64, the bit length on 8 bytes. -/
def pad (msg : List Nat) : List Nat :=
  msg ++ 0x80 :: List.replicate ((119 - msg.length % 64) % 64) 0
    ++ be32 (8 * msg.length >>> 32 % 2 ^ 32) ++ be32 (8 * msg.length % 2 ^ 32)

/-- Group bytes four by four into big-endian words. -/
def toWords : List Nat → List Nat
  | b0 :: b1 :: b2 :: b3 :: rest => (((b0 * 256 + b1) * 256 + b2) * 256 + b3) :: toWords rest
  | _ => []

/-- The message schedule past the first 16 words; `w` holds the last 16 words. -/
def schedule : Nat → List Nat → List Nat
  | 0, _ => []
  | n + 1, w =>
    let x := (ssig1 (w.getD 14 0) + w.getD 9 0 + ssig0 (w.getD 1 0) + w.getD 0 0) % 2 ^ 32
    x :: schedule n (w.drop 1 ++ [x])

/-- One round of the compression function on the working variables `a..h`. -/
def round (r : List Nat) (kw : Nat) : List Nat :=
  match r with
  | [a, b, c, d, e, f, g, h] =>
    let t1 := h + bsig1 e + ch e f g + kw
    let t2 := bsig0 a + maj a b c
    [(t1 + t2) % 2 ^ 32, a, b, c, (d + t1) % 2 ^ 32, e, f, g]
  | _ => r

/-- Compression of one 16-word block into the chaining value `hs`. -/
def compress (hs block : List Nat) : List Nat :=
  let w := block ++ schedule 48 block
  List.zipWith (fun x y => (x + y) % 2 ^ 32) hs
    ((List.zipWith (fun k x => k + x) K256 w).foldl round hs)

def processBlocks : Nat → List Nat → List Nat → List Nat
  | 0, hs, _ => hs
  | n + 1, hs, ws => processBlocks n (compress hs (ws.take 16)) (ws.drop 16)

/-- The function `sha256.Sum256`: the 32 bytes of the SHA-256 digest. -/
def Sum256 (data : List Nat) : List Nat :=
  let ws := toWords (pad data)
  (processBlocks (ws.length / 16) H256 ws).flatMap be32

/-- The function `strconv.FormatInt(n, 16)` converted to `[]byte`: lower-case
hexadecimal digits, preceded by a minus sign for a negative number. -/
def IntToHex (n : Int) : List Nat :=
  if n < 0 then 45 :: (Nat.toDigits 16 n.natAbs).map Char.toNat
  else (Nat.toDigits 16 n.toNat).map Char.toNat

/-- The method `(*big.Int).SetBytes`: the bytes read as a big-endian unsigned
integer. -/
def SetBytes (buf : List Nat) : Nat := buf.foldl (fun acc b => acc * 256 + b) 0

/-- A struct field as package `reflect` shows it to `encoding/binary`; only the
kinds occurring in the program. -/
inductive Field where
  | str (s : String)
  | float64 (bits : Nat)
  deriving DecidableEq, Repr

/-- The function `sizeof` of `encoding/binary`: the encoded size of a field, with
`none` standing for Go's `-1` (the kind has no fixed size). -/
def sizeof : Field → Option Nat
  | .str _ => none
  | .float64 _ => some 8

/-- The function `dataSize` of `encoding/binary` on a struct: the sum of the
field sizes, `none` (Go's `-1`) as soon as one field has no fixed size. -/
def dataSize : List Field → Option Nat
  | [] => some 0
  | f :: fs =>
    match sizeof f with
    | none => none
    | some s => (dataSize fs).map (fun sum => s + sum)

/-- Little-endian bytes of a 64-bit word. -/
def le64 (x : Nat) : List Nat := (List.range 8).map (fun i => x >>> (8 * i) % 256)

/-- What the encoder of `encoding/binary` writes for one field; it has no case
for strings and writes nothing for them. -/
def encodeField : Field → List Nat
  | .str _ => []
  | .float64 bits => le64 bits

/-- The function `binary.Write(buf, binary.LittleEndian, data)` for `data` a
pointer to a struct with the given fields: the buffer afterwards and the
returned error. A struct that is not fixed-size is refused before anything is
written. -/
def binaryWrite (buf : List Nat) (data : List Field) : List Nat × Option String :=
  match dataSize data with
  | none => (buf, some "binary.Write: some values are not fixed-sized in type *main.Transaction")
  | some _ => (buf ++ data.flatMap encodeField, none)

/-- The function `bytes.Join`. -/
def bytesJoin (s : List (List Nat)) (sep : List Nat) : List Nat := List.intercalate sep s

/-! ## Data model -/

/-- Transaction is Transaction data; `TransValue` is the IEEE-754 bit pattern of
the `float64`. -/
structure Transaction where
  Sender : String
  Receiver : String
  TransValue : Nat
  deriving DecidableEq, Repr

/-- The fields of a `Transaction` in declaration order. -/
def Transaction.fields (t : Transaction) : List Field :=
  [.str t.Sender, .str t.Receiver, .float64 t.TransValue]

/-- Block is blockchain one data structure. -/
structure Block where
  Timestamp : Int
  Data : Transaction
  PrevBlockHash : List Nat
  Hash : List Nat
  Nonce : Int
  deriving DecidableEq, Repr

/-- ProofOfWork is PoW algorithm structure. -/
structure ProofOfWork where
  block : Block
  target : Int
  deriving DecidableEq, Repr

def targetBits : Nat := 24

def maxNonce : Int := 2 ^ 63 - 1

def threadCnt : Nat := 10

/-- prepare is PoW prepare data. The error returned by `binary.Write` is
dropped, as in the source. -/
def prepare (pow : ProofOfWork) (nonce : Int) : List Nat :=
  let dataBuf := (binaryWrite [] pow.block.Data.fields).1
  let dataByte := dataBuf
  bytesJoin [pow.block.PrevBlockHash, dataByte, IntToHex pow.block.Timestamp,
    IntToHex (targetBits : Int), IntToHex nonce] []

/-- The method `(*big.Int).Lsh`. -/
def Lsh (x : Int) (n : Nat) : Int := x * 2 ^ n

/-- NewProofOfWork is generate PoW. -/
def NewProofOfWork (b : Block) : ProofOfWork :=
  let target : Int := 1
  let target := Lsh target (256 - targetBits)
  ⟨b, target⟩

/-- The acceptance test of the worker: `hashInt.SetBytes(hash[:])` followed by
`hashInt.Cmp(pow.target) == -1`. -/
def belowTarget (pow : ProofOfWork) (hash : List Nat) : Bool :=
  decide ((SetBytes hash : Int) < pow.target)

/-! ## The worker loop -/

/-- The start index `getHash` computes for the worker number `index`. -/
def getHashStart (index : Nat) : Int :=
  let div := maxNonce / (threadCnt : Int)
  let nonceIndex := wrap64 (div * (index : Int))
  if nonceIndex < 0 then maxNonce else nonceIndex

/-- The loop condition of `getHashChild`, as written:
`nonceIndex < (nonceIndex + (maxNonce / threadCnt))`. -/
def loopCond (nonceIndex : Int) : Bool :=
  decide (nonceIndex < wrap64 (nonceIndex + maxNonce / (threadCnt : Int)))

/-- How a call of `getHashChild` leaves its loop. -/
inductive Exit where
  | exhausted
  | cancelled
  | delivered (currentNonce : Int) (hash : List Nat)
  deriving DecidableEq, Repr

/-- One pass through the loop of `getHashChild` while `closeCh` is open. -/
inductive Iter where
  | exhausted
  | found (currentNonce : Int) (hash : List Nat)
  | next (currentNonce : Int)
  deriving DecidableEq, Repr

/-- One pass through the loop of `getHashChild` while `closeCh` is open: the
loop condition, the hash of the header for `currentNonce`, the comparison with
the target, and `currentNonce++` when the hash is not below the target. -/
def iterate (pow : ProofOfWork) (nonceIndex currentNonce : Int) : Iter :=
  if loopCond nonceIndex then
    let data := prepare pow currentNonce
    let hash := Sum256 data
    if belowTarget pow hash then .found currentNonce hash
    else .next (wrap64 (currentNonce + 1))
  else .exhausted

/-- The loop of `getHashChild` when `closeCh` is never closed and `Run` takes
what is sent: `none` when the fuel runs out before the loop is left. -/
def getHashChildLoop (pow : ProofOfWork) (nonceIndex : Int) : Nat → Int → Option Exit
  | 0, _ => none
  | fuel + 1, currentNonce =>
    match iterate pow nonceIndex currentNonce with
    | .exhausted => some .exhausted
    | .found n hash => some (.delivered n hash)
    | .next n => getHashChildLoop pow nonceIndex fuel n

/-! ## The goroutines of `Run` -/

/-- Where a `getHashChild` goroutine stands, with its live locals. -/
inductive Worker where
  /-- at the head of the loop -/
  | scan (nonceIndex currentNonce : Int)
  /-- the hash is below the target; before the inner `select` -/
  | found (currentNonce : Int) (hash : List Nat)
  /-- before `hashRcv <- hash` -/
  | sendHash (currentNonce : Int) (hash : List Nat)
  /-- before `nonce <- currentNonce` -/
  | sendNonce (currentNonce : Int) (hash : List Nat)
  /-- the body is left; the deferred function is about to call `once.Do` -/
  | deferred (exit : Exit)
  /-- inside `once.Do`, after `close(hashRcv)` and before `close(nonce)` -/
  | closing (exit : Exit)
  /-- the goroutine has ended -/
  | done (exit : Exit)
  /-- the goroutine panicked: send on a closed channel -/
  | panicked
  deriving DecidableEq, Repr

/-- Where `Run` stands, with its live locals. -/
inductive RunPc where
  /-- before `go getHash(...)` -/
  | start
  /-- at `hash := <-hashRcv` -/
  | recvHash
  /-- at `currentNonce := <-nonce` -/
  | recvNonce (hash : List Nat)
  /-- before `close(closeCh)` -/
  | closing (currentNonce : Int) (hash : List Nat)
  /-- after `return currentNonce, hash[:]` -/
  | returned (currentNonce : Int) (hash : List Nat)
  deriving DecidableEq, Repr

/-- The state of a `sync.Once`. -/
inductive Once where
  | fresh
  | running
  | finished
  deriving DecidableEq, Repr

/-- The state of one call of `Run`: its own position, the loop index of the
`getHash` goroutine (`none` before it is launched), the `getHashChild`
goroutines in launch order, which channels are closed, and the `sync.Once`. -/
structure State where
  run : RunPc
  getHash : Option Nat
  workers : List Worker
  closeCh : Bool
  hashRcv : Bool
  nonce : Bool
  once : Once
  deriving DecidableEq, Repr

/-- The goroutine that takes the next atomic action. -/
inductive Action where
  | run
  | getHash
  | worker (i : Nat)
  deriving DecidableEq, Repr

/-- The state on entry to `Run`. -/
def initState : State := ⟨.start, none, [], false, false, false, .fresh⟩

/-- The value received from a closed `chan [32]byte`. -/
def zeroHash : List Nat := List.replicate 32 0

/-- One atomic action of `Run`; `none` when `Run` is blocked or has returned. A
receive completes on its own only when the channel is closed; otherwise it
completes together with the send of a worker, in `stepWorker`. -/
def stepRun (s : State) : Option State :=
  match s.run with
  | .start => some { s with run := .recvHash, getHash := some 0 }
  | .recvHash => if s.hashRcv then some { s with run := .recvNonce zeroHash } else none
  | .recvNonce hash => if s.nonce then some { s with run := .closing 0 hash } else none
  | .closing n hash => some { s with run := .returned n hash, closeCh := true }
  | .returned _ _ => none

/-- One pass of the loop of `getHash`: launch the next `getHashChild`. -/
def stepGetHash (s : State) : Option State :=
  match s.getHash with
  | none => none
  | some index =>
    if index < threadCnt then
      some { s with getHash := some (index + 1),
                    workers := s.workers ++ [.scan (getHashStart index) (getHashStart index)] }
    else none

/-- One atomic action of the `getHashChild` goroutine number `i`; `none` when
it is blocked or has ended. -/
def stepWorker (pow : ProofOfWork) (s : State) (i : Nat) : Option State :=
  match s.workers[i]? with
  | none => none
  | some (.scan nonceIndex currentNonce) =>
    if loopCond nonceIndex then
      if s.closeCh then some { s with workers := s.workers.set i (.deferred .cancelled) }
      else
        match iterate pow nonceIndex currentNonce with
        | .exhausted => some { s with workers := s.workers.set i (.deferred .exhausted) }
        | .found n hash => some { s with workers := s.workers.set i (.found n hash) }
        | .next n => some { s with workers := s.workers.set i (.scan nonceIndex n) }
    else some { s with workers := s.workers.set i (.deferred .exhausted) }
  | some (.found currentNonce hash) =>
    if s.closeCh then some { s with workers := s.workers.set i (.deferred .cancelled) }
    else some { s with workers := s.workers.set i (.sendHash currentNonce hash) }
  | some (.sendHash currentNonce hash) =>
    if s.hashRcv then some { s with workers := s.workers.set i .panicked }
    else
      match s.run with
      | .recvHash =>
        some { s with run := .recvNonce hash,
                      workers := s.workers.set i (.sendNonce currentNonce hash) }
      | _ => none
  | some (.sendNonce currentNonce hash) =>
    if s.nonce then some { s with workers := s.workers.set i .panicked }
    else
      match s.run with
      | .recvNonce received =>
        some { s with run := .closing currentNonce received,
                      workers := s.workers.set i (.deferred (.delivered currentNonce hash)) }
      | _ => none
  | some (.deferred e) =>
    match s.once with
    | .fresh => some { s with once := .running, hashRcv := true,
                              workers := s.workers.set i (.closing e) }
    | .running => none
    | .finished => some { s with workers := s.workers.set i (.done e) }
  | some (.closing e) =>
    some { s with once := .finished, nonce := true, workers := s.workers.set i (.done e) }
  | some (.done _) => none
  | some .panicked => none

/-- A goroutine has panicked; the panic is not recovered and ends the program. -/
def State.crashed (s : State) : Bool := decide (Worker.panicked ∈ s.workers)

/-- One atomic action of the chosen goroutine; nothing runs once the program
has crashed. -/
def step (pow : ProofOfWork) (s : State) (a : Action) : Option State :=
  if s.crashed then none
  else
    match a with
    | .run => stepRun s
    | .getHash => stepGetHash s
    | .worker i => stepWorker pow s i

/-- Run a schedule: the listed goroutines act in turn; `none` when one of them
cannot act at its turn. -/
def exec (pow : ProofOfWork) : State → List Action → Option State
  | s, [] => some s
  | s, a :: as =>
    match step pow s a with
    | none => none
    | some t => exec pow t as

/-- The pair a worker has delivered to `Run`, once both sends are done. -/
def Worker.delivered : Worker → Option (Int × List Nat)
  | .deferred (.delivered n h) => some (n, h)
  | .closing (.delivered n h) => some (n, h)
  | .done (.delivered n h) => some (n, h)
  | _ => none

/-- The nominal range of the worker number `index`: from its start up to the
bound written in the loop condition of `getHashChild`. -/
def inRange (index : Nat) (n : Int) : Prop :=
  getHashStart index ≤ n ∧ n < wrap64 (getHashStart index + maxNonce / (threadCnt : Int))

instance (index : Nat) (n : Int) : Decidable (inRange index n) := by
  unfold inRange; infer_instance

/-- The payload of the first block `main` adds: Alice pays Bob 1.0. -/
def aliceToBob : Transaction := ⟨"Alice", "Bob", 0x3ff0000000000000⟩

/-- The payload of the second block `main` adds: Bob pays Alice 1.0. -/
def bobToAlice : Transaction := ⟨"Bob", "Alice", 0x3ff0000000000000⟩

/-! ## Predicates on the states of `Run` -/

/-- The pair `(n, hash)` is a solution: `hash` is the SHA-256 digest of the header
prepared for `n` and, read as a big-endian unsigned integer, it is strictly less
than the target. -/
def Solves (pow : ProofOfWork) (n : Int) (hash : List Nat) : Prop :=
  hash = Sum256 (prepare pow n) ∧ (SetBytes hash : Int) < pow.target

/-- `Run` has not yet received both values. -/
def RunPc.early : RunPc → Bool
  | .start => true
  | .recvHash => true
  | .recvNonce _ => true
  | .closing _ _ => false
  | .returned _ _ => false

/-- The worker is still inside the body of `getHashChild`. -/
def Worker.active : Worker → Bool
  | .scan _ _ => true
  | .found _ _ => true
  | .sendHash _ _ => true
  | .sendNonce _ _ => true
  | .deferred _ => false
  | .closing _ => false
  | .done _ => false
  | .panicked => false

/-- What holds of the way a worker left its loop, given where `Run` stands. -/
def Exit.ok (pow : ProofOfWork) (run : RunPc) : Exit → Prop
  | .exhausted => False
  | .cancelled => True
  | .delivered n h => Solves pow n h ∧ (run = .closing n h ∨ run = .returned n h)

/-- What holds of a worker in every reachable state, given where `Run` stands. -/
def Worker.ok (pow : ProofOfWork) (run : RunPc) : Worker → Prop
  | .scan nonceIndex _ => loopCond nonceIndex = true
  | .found n h => Solves pow n h
  | .sendHash n h => Solves pow n h
  | .sendNonce n h =>
    Solves pow n h ∧
      match run with
      | .start => False
      | .recvHash => False
      | .recvNonce received => received = h
      | .closing _ _ => True
      | .returned _ _ => True
  | .deferred e => e.ok pow run
  | .closing e => e.ok pow run
  | .done e => e.ok pow run
  | .panicked => True

/-- The invariant of the goroutine system of `Run`. -/
structure Inv (pow : ProofOfWork) (s : State) : Prop where
  workers_ok : ∀ w ∈ s.workers, w.ok pow s.run
  early : s.run.early = true →
    s.closeCh = false ∧ s.hashRcv = false ∧ s.nonce = false ∧ s.once = .fresh ∧
      ∀ w ∈ s.workers, w.active = true
  late : ∀ n h, s.run = .closing n h ∨ s.run = .returned n h →
    Solves pow n h ∧ ∃ w ∈ s.workers, w.delivered = some (n, h)

/-! ## `NewBlock` and a concrete mining attempt -/

/-- NewBlock is genarate new block. The value of `time.Now().Unix()` is `now`,
and `sched` is the schedule the goroutines of `Run` follow; the result is
`none` when `Run` has not returned at the end of the schedule. -/
def NewBlock (now : Int) (data : Transaction) (prevBloackHash : List Nat)
    (sched : List Action) : Option Block :=
  let block : Block := ⟨now, data, prevBloackHash, [], 0⟩
  let pow := NewProofOfWork block
  match exec pow initState sched with
  | none => none
  | some s =>
    match s.run with
    | .returned nonce hash => some { block with Hash := hash, Nonce := nonce }
    | _ => none

/-- A block as `NewBlock` creates it before mining: Alice pays Bob, no previous
hash, created at Unix time 1502978519. -/
def block0 : Block := ⟨1502978519, aliceToBob, [], [], 0⟩

/-- The SHA-256 digest of the header of `block0` for nonce 0. -/
def hash0 : List Nat :=
  [0, 0, 0, 254, 2, 92, 180, 121, 49, 27, 105, 145, 136, 33, 16, 177, 119, 114, 175, 248, 130,
    191, 12, 60, 25, 237, 99, 180, 210, 119, 70, 67]

/-- A schedule of `Run` on `block0`: `Run` launches `getHash`, which launches the
first worker; the worker finds nonce 0, hands hash and nonce to `Run`, and
closes the channels; `Run` returns. -/
def sched0 : List Action :=
  [.run, .getHash, .worker 0, .worker 0, .worker 0, .worker 0, .run, .worker 0, .worker 0]

/-- The state at the end of `sched0`. -/
def state0 : State :=
  ⟨.returned 0 hash0, some 1, [.done (.delivered 0 hash0)], true, true, true, .finished⟩

/-! ## Arithmetic of the range splitting -/

theorem div_eq : maxNonce / (threadCnt : Int) = 922337203685477580 := by decide

theorem getHashStart_eq (index : Nat) (h : index < threadCnt) :
    getHashStart index = 922337203685477580 * (index : Int) := by
  unfold threadCnt at h
  interval_cases index <;> decide

theorem loopCond_getHashStart (index : Nat) (h : index < threadCnt) :
    loopCond (getHashStart index) = true := by
  unfold threadCnt at h
  interval_cases index <;> decide

theorem inRange_iff (index : Nat) (h : index < threadCnt) (n : Int) :
    inRange index n ↔
      922337203685477580 * (index : Int) ≤ n ∧
        n < 922337203685477580 * (index : Int) + 922337203685477580 := by
  unfold inRange
  rw [getHashStart_eq index h, div_eq]
  unfold threadCnt at h
  have : wrap64 (922337203685477580 * (index : Int) + 922337203685477580)
      = 922337203685477580 * (index : Int) + 922337203685477580 := by
    unfold wrap64; omega
  rw [this]

/-- C9: for every index below `threadCnt`, the product `div * index` that
`getHash` computes stays inside the 64-bit signed range (wrapping leaves it
unchanged), is not negative, so the guard `nonceIndex < 0` is not taken and the
start handed to the worker is `div * index`; the starts are strictly increasing
in the index, and the ten starts are `0, div, ..., 9 * div`. -/
theorem getHash_start_no_overflow (index : Nat) (h : index < threadCnt) :
    maxNonce / (threadCnt : Int) * (index : Int) ≤ maxNonce ∧
    wrap64 (maxNonce / (threadCnt : Int) * (index : Int))
      = maxNonce / (threadCnt : Int) * (index : Int) ∧
    0 ≤ wrap64 (maxNonce / (threadCnt : Int) * (index : Int)) ∧
    getHashStart index = maxNonce / (threadCnt : Int) * (index : Int) ∧
    (∀ i, i < index → getHashStart i < getHashStart index) ∧
    (List.range threadCnt).map getHashStart
      = (List.range threadCnt).map (fun i => maxNonce / (threadCnt : Int) * (i : Int)) := by
  have hstart := getHashStart_eq index h
  rw [div_eq]
  have hw : wrap64 (922337203685477580 * (index : Int)) = 922337203685477580 * (index : Int) := by
    unfold threadCnt at h
    unfold wrap64; omega
  refine ⟨?_, hw, ?_, hstart, ?_, by decide⟩
  · unfold threadCnt at h
    unfold maxNonce; omega
  · rw [hw]; omega
  · intro i hi
    rw [getHashStart_eq i (by omega), hstart]
    omega

theorem getHash_start_no_overflow_witness :
    maxNonce / (threadCnt : Int) * ((9 : Nat) : Int) ≤ maxNonce ∧
    wrap64 (maxNonce / (threadCnt : Int) * ((9 : Nat) : Int))
      = maxNonce / (threadCnt : Int) * ((9 : Nat) : Int) ∧
    0 ≤ wrap64 (maxNonce / (threadCnt : Int) * ((9 : Nat) : Int)) ∧
    getHashStart 9 = maxNonce / (threadCnt : Int) * ((9 : Nat) : Int) ∧
    (∀ i, i < 9 → getHashStart i < getHashStart 9) ∧
    (List.range threadCnt).map getHashStart
      = (List.range threadCnt).map (fun i => maxNonce / (threadCnt : Int) * (i : Int)) :=
  getHash_start_no_overflow 9 (by decide)

/-- C2, as stated, fails: the nonce `maxNonce - 1` lies in `[0, maxNonce)` but
in none of the ten ranges `[div * i, div * i + div)`. -/
theorem ranges_do_not_cover_maxNonce :
    ¬ (∀ n : Int, 0 ≤ n → n < maxNonce → ∃ index, index < threadCnt ∧ inRange index n) := by
  intro hall
  obtain ⟨index, hlt, hin⟩ := hall (maxNonce - 1) (by decide) (by decide)
  rw [inRange_iff index hlt] at hin
  unfold threadCnt at hlt
  unfold maxNonce at hin
  omega

/-- C2, amended: the ten ranges `[div * i, div * i + div)` are pairwise
disjoint and their union is exactly `[0, maxNonce - maxNonce % threadCnt)`, that
is `[0, maxNonce - 7)`: a nonce is in some range if and only if it lies there,
and it is in at most one range. -/
theorem ranges_partition_below_remainder (n : Int) :
    ((∃ index, index < threadCnt ∧ inRange index n) ↔
      (0 ≤ n ∧ n < maxNonce - maxNonce % (threadCnt : Int))) ∧
    (∀ i j, i < threadCnt → j < threadCnt → inRange i n → inRange j n → i = j) ∧
    maxNonce % (threadCnt : Int) = 7 := by
  have hrem : maxNonce % (threadCnt : Int) = 7 := by decide
  refine ⟨⟨?_, ?_⟩, ?_, hrem⟩
  · rintro ⟨index, hlt, hin⟩
    rw [inRange_iff index hlt] at hin
    rw [hrem]
    unfold threadCnt at hlt
    unfold maxNonce
    omega
  · rintro ⟨h0, hn⟩
    rw [hrem] at hn
    unfold maxNonce at hn
    have hlt : (n / 922337203685477580).toNat < threadCnt := by
      unfold threadCnt; omega
    refine ⟨(n / 922337203685477580).toNat, hlt, ?_⟩
    rw [inRange_iff _ hlt]
    omega
  · intro i j hi hj hin hjn
    rw [inRange_iff i hi] at hin
    rw [inRange_iff j hj] at hjn
    omega


/-! ## Header encoding -/

theorem binaryWrite_transaction (buf : List Nat) (data : Transaction) :
    binaryWrite buf data.fields
      = (buf, some "binary.Write: some values are not fixed-sized in type *main.Transaction") := by
  rfl

theorem prepare_eq (pow : ProofOfWork) (nonce : Int) :
    prepare pow nonce
      = pow.block.PrevBlockHash ++ IntToHex pow.block.Timestamp ++ IntToHex (targetBits : Int)
          ++ IntToHex nonce := by
  simp [prepare, binaryWrite_transaction, bytesJoin, List.intercalate, List.intersperse]

/-- C10: the header encoding is not injective in its integer fields. For every
previous hash and payload, the block with Timestamp 0x1 hashed with nonce 0x181
and the block with Timestamp 0x118 hashed with nonce 0x1 have different
(Timestamp, nonce) pairs and byte-identical headers, both ending in the text
118181. -/
theorem prepare_not_injective (prev hash : List Nat) (data : Transaction) (stored : Int) :
    ∃ b1 b2 : Block, ∃ n1 n2 : Int,
      b1.PrevBlockHash = prev ∧ b2.PrevBlockHash = prev ∧ b1.Data = data ∧ b2.Data = data ∧
      b1.Timestamp = 0x1 ∧ n1 = 0x181 ∧ b2.Timestamp = 0x118 ∧ n2 = 0x1 ∧
      (b1.Timestamp, n1) ≠ (b2.Timestamp, n2) ∧
      prepare (NewProofOfWork b1) n1 = prepare (NewProofOfWork b2) n2 ∧
      prepare (NewProofOfWork b1) n1 = prev ++ "118181".toList.map Char.toNat := by
  refine ⟨⟨0x1, data, prev, hash, stored⟩, ⟨0x118, data, prev, hash, stored⟩, 0x181, 0x1,
    rfl, rfl, rfl, rfl, rfl, rfl, rfl, rfl, by simp, ?_, ?_⟩
  · rw [prepare_eq, prepare_eq]
    simp only [NewProofOfWork, List.append_assoc]
    congr 1
  · rw [prepare_eq]
    simp only [NewProofOfWork, List.append_assoc]
    congr 1

/-- C4, what the code does: `binary.Write` refuses every `Transaction` and
writes nothing, so the header is PrevBlockHash, the hexadecimal Timestamp, the
hexadecimal targetBits and the hexadecimal nonce, with no byte of the payload:
two blocks that differ only in their payload have the same header, as the two
payloads of `main` show at Timestamp 1502978519 and nonce 0. -/
theorem prepare_has_no_payload_bytes (pow : ProofOfWork) (data : Transaction) (nonce : Int) :
    (binaryWrite [] pow.block.Data.fields).1 = [] ∧
    prepare pow nonce
      = pow.block.PrevBlockHash ++ IntToHex pow.block.Timestamp ++ IntToHex (targetBits : Int)
          ++ IntToHex nonce ∧
    prepare { pow with block := { pow.block with Data := data } } nonce = prepare pow nonce ∧
    aliceToBob ≠ bobToAlice ∧
    prepare (NewProofOfWork ⟨1502978519, aliceToBob, [], [], 0⟩) 0
      = "5995a1d7180".toList.map Char.toNat ∧
    prepare (NewProofOfWork ⟨1502978519, bobToAlice, [], [], 0⟩) 0
      = "5995a1d7180".toList.map Char.toNat := by
  refine ⟨rfl, prepare_eq pow nonce, ?_, by decide, by decide, by decide⟩
  rw [prepare_eq, prepare_eq]

/-! ## Target -/

theorem foldl_bytes (l : List Nat) (acc : Nat) :
    l.foldl (fun acc b => acc * 256 + b) acc
      = acc * 256 ^ l.length + l.foldl (fun acc b => acc * 256 + b) 0 := by
  induction l generalizing acc with
  | nil => simp
  | cons x xs ih =>
    simp only [List.foldl_cons, List.length_cons]
    rw [ih (acc * 256 + x), ih (0 * 256 + x)]
    ring

theorem SetBytes_lt (l : List Nat) (h : ∀ x ∈ l, x < 256) : SetBytes l < 256 ^ l.length := by
  induction l using List.reverseRecOn with
  | nil => simp [SetBytes]
  | append_singleton xs x ih =>
    have hx : x < 256 := h x (by simp)
    have hxs := ih (fun y hy => h y (by simp [hy]))
    simp only [SetBytes, List.foldl_append, List.foldl_cons, List.foldl_nil, List.length_append,
      List.length_singleton] at hxs ⊢
    rw [pow_succ]
    omega

/-- C6: the target built by `NewProofOfWork` is `1 << (256 - targetBits)`, that
is 2^232, and for every 32-byte digest the acceptance test of the worker
succeeds if and only if the first three bytes of the digest (its leading
`targetBits` = 24 bits) are zero. -/
theorem target_accepts_iff_leading_zero (b : Block) (d : List Nat) (hlen : d.length = 32)
    (hbytes : ∀ x ∈ d, x < 256) :
    (NewProofOfWork b).target = 2 ^ (256 - targetBits) ∧
    (NewProofOfWork b).target = 2 ^ 232 ∧
    targetBits = 24 ∧
    (belowTarget (NewProofOfWork b) d = true ↔ d.take 3 = [0, 0, 0]) := by
  refine ⟨by simp [NewProofOfWork, Lsh], by simp [NewProofOfWork, Lsh, targetBits], rfl, ?_⟩
  match d, hlen, hbytes with
  | x :: y :: z :: rest, hlen, hbytes =>
    have hrest : rest.length = 29 := by simpa using hlen
    have hlt := SetBytes_lt rest (fun v hv => hbytes v (by simp [hv]))
    have hsplit : SetBytes (x :: y :: z :: rest)
        = ((x * 256 + y) * 256 + z) * 256 ^ 29 + SetBytes rest := by
      simp only [SetBytes, List.foldl_cons]
      rw [foldl_bytes, hrest]
      ring
    rw [hrest] at hlt
    have htarget : (NewProofOfWork b).target = ((256 ^ 29 : Nat) : Int) := by
      simp [NewProofOfWork, Lsh, targetBits]
    simp only [belowTarget, htarget, decide_eq_true_eq, Nat.cast_lt, hsplit, List.take_succ_cons,
      List.take_zero, List.cons.injEq, and_true]
    norm_num at hlt ⊢
    omega

theorem target_accepts_iff_leading_zero_witness :
    (NewProofOfWork ⟨1502978519, aliceToBob, [], [], 0⟩).target = 2 ^ (256 - targetBits) ∧
    (NewProofOfWork ⟨1502978519, aliceToBob, [], [], 0⟩).target = 2 ^ 232 ∧
    targetBits = 24 ∧
    (belowTarget (NewProofOfWork ⟨1502978519, aliceToBob, [], [], 0⟩)
        [0, 0, 0, 254, 2, 92, 180, 121, 49, 27, 105, 145, 136, 33, 16, 177, 119, 114, 175, 248,
          130, 191, 12, 60, 25, 237, 99, 180, 210, 119, 70, 67] = true ↔
      List.take 3 [0, 0, 0, 254, 2, 92, 180, 121, 49, 27, 105, 145, 136, 33, 16, 177, 119, 114,
          175, 248, 130, 191, 12, 60, 25, 237, 99, 180, 210, 119, 70, 67] = [0, 0, 0]) :=
  target_accepts_iff_leading_zero ⟨1502978519, aliceToBob, [], [], 0⟩ _ (by decide) (by decide)


/-! ## The worker loop -/

theorem iterate_found {pow : ProofOfWork} {nonceIndex currentNonce n : Int} {hash : List Nat}
    (h : iterate pow nonceIndex currentNonce = .found n hash) :
    n = currentNonce ∧ hash = Sum256 (prepare pow n) ∧ belowTarget pow hash = true := by
  simp only [iterate] at h
  split_ifs at h with hc hb
  simp only [Iter.found.injEq] at h
  obtain ⟨rfl, rfl⟩ := h
  exact ⟨rfl, rfl, hb⟩

theorem iterate_next {pow : ProofOfWork} {nonceIndex currentNonce n : Int}
    (h : iterate pow nonceIndex currentNonce = .next n) :
    n = wrap64 (currentNonce + 1) ∧
      belowTarget pow (Sum256 (prepare pow currentNonce)) = false := by
  simp only [iterate] at h
  split_ifs at h with hc hb
  simp only [Iter.next.injEq] at h
  exact ⟨h.symm, by simpa using hb⟩

theorem iterate_ne_exhausted {pow : ProofOfWork} {nonceIndex : Int} (currentNonce : Int)
    (hc : loopCond nonceIndex = true) : iterate pow nonceIndex currentNonce ≠ .exhausted := by
  simp only [iterate, if_pos hc]
  split_ifs <;> simp

theorem belowTarget_false_of_target_nonpos (pow : ProofOfWork) (hash : List Nat)
    (ht : pow.target ≤ 0) : belowTarget pow hash = false := by
  unfold belowTarget
  simp only [decide_eq_false_iff_not, not_lt]
  have : (0 : Int) ≤ (SetBytes hash : Int) := Int.ofNat_nonneg _
  omega

/-- C3, what the code does: the loop condition of `getHashChild` compares
`nonceIndex` with `nonceIndex + maxNonce / threadCnt` and never looks at
`currentNonce`; for every start `getHash` produces it is true, so whatever
`currentNonce` has become (also `nonceIndex + maxNonce / threadCnt` and beyond)
the pass through the loop does not leave by exhaustion, the loop never ends by
exhaustion, and with a target that no digest is below it runs out of every
fuel. -/
theorem getHashChild_never_exhausts (pow : ProofOfWork) (index : Nat) (h : index < threadCnt)
    (fuel : Nat) (currentNonce : Int) :
    loopCond (getHashStart index) = true ∧
    iterate pow (getHashStart index)
      (getHashStart index + maxNonce / (threadCnt : Int)) ≠ .exhausted ∧
    iterate pow (getHashStart index) currentNonce ≠ .exhausted ∧
    getHashChildLoop pow (getHashStart index) fuel currentNonce ≠ some .exhausted ∧
    (pow.target ≤ 0 → getHashChildLoop pow (getHashStart index) fuel currentNonce = none) := by
  have hc := loopCond_getHashStart index h
  refine ⟨hc, iterate_ne_exhausted _ hc, iterate_ne_exhausted _ hc, ?_, ?_⟩
  · induction fuel generalizing currentNonce with
    | zero => simp [getHashChildLoop]
    | succ k ih =>
      rw [getHashChildLoop]
      cases hit : iterate pow (getHashStart index) currentNonce with
      | exhausted => exact absurd hit (iterate_ne_exhausted currentNonce hc)
      | found n hash => simp
      | next n => exact ih n
  · intro ht
    induction fuel generalizing currentNonce with
    | zero => simp [getHashChildLoop]
    | succ k ih =>
      rw [getHashChildLoop]
      cases hit : iterate pow (getHashStart index) currentNonce with
      | exhausted => exact absurd hit (iterate_ne_exhausted currentNonce hc)
      | found n hash =>
        have hb := (iterate_found hit).2.2
        rw [belowTarget_false_of_target_nonpos pow _ ht] at hb
        cases hb
      | next n => exact ih n

theorem getHashChild_never_exhausts_witness :
    loopCond (getHashStart 0) = true ∧
    iterate ⟨⟨1502978519, aliceToBob, [], [], 0⟩, 0⟩ (getHashStart 0)
      (getHashStart 0 + maxNonce / (threadCnt : Int)) ≠ .exhausted ∧
    iterate ⟨⟨1502978519, aliceToBob, [], [], 0⟩, 0⟩ (getHashStart 0) 922337203685477580
      ≠ .exhausted ∧
    getHashChildLoop ⟨⟨1502978519, aliceToBob, [], [], 0⟩, 0⟩ (getHashStart 0) 1000
      922337203685477580 ≠ some .exhausted ∧
    getHashChildLoop ⟨⟨1502978519, aliceToBob, [], [], 0⟩, 0⟩ (getHashStart 0) 1000
      922337203685477580 = none :=
  have h := getHashChild_never_exhausts ⟨⟨1502978519, aliceToBob, [], [], 0⟩, 0⟩ 0 (by decide)
    1000 922337203685477580
  ⟨h.1, h.2.1, h.2.2.1, h.2.2.2.1, h.2.2.2.2 (le_refl _)⟩


/-! ## The invariant of the goroutine system -/

theorem exists_mem_set {α : Type} (P : α → Prop) (l : List α) (i : Nat) (w v : α)
    (hi : l[i]? = some w) (hv : P w → P v) (h : ∃ x ∈ l, P x) : ∃ x ∈ l.set i v, P x := by
  induction l generalizing i with
  | nil => simp at h
  | cons a l ih =>
    obtain ⟨x, hx, hP⟩ := h
    cases i with
    | zero =>
      simp only [List.getElem?_cons_zero, Option.some.injEq] at hi
      subst hi
      simp only [List.set_cons_zero]
      rcases List.mem_cons.mp hx with rfl | hx
      · exact ⟨v, by simp, hv hP⟩
      · exact ⟨x, by simp [hx], hP⟩
    | succ i =>
      simp only [List.getElem?_cons_succ] at hi
      simp only [List.set_cons_succ]
      rcases List.mem_cons.mp hx with rfl | hx
      · exact ⟨x, by simp, hP⟩
      · obtain ⟨y, hy, hPy⟩ := ih i hi ⟨x, hx, hP⟩
        exact ⟨y, by simp [hy], hPy⟩

theorem mem_of_getElem?_eq {α : Type} {l : List α} {i : Nat} {w : α} (h : l[i]? = some w) :
    w ∈ l := by
  rw [List.getElem?_eq_some] at h
  obtain ⟨hi, rfl⟩ := h
  exact List.getElem_mem hi

theorem mem_set_self {α : Type} {l : List α} {i : Nat} {w : α} (v : α) (h : l[i]? = some w) :
    v ∈ l.set i v := by
  rw [List.getElem?_eq_some] at h
  obtain ⟨hi, -⟩ := h
  exact List.mem_set l i hi v

/-- A worker step that leaves `Run` where it is preserves the invariant. -/
theorem Inv.set_worker {pow : ProofOfWork} {s t : State} {i : Nat} {w v : Worker}
    (inv : Inv pow s) (hw : s.workers[i]? = some w)
    (hrun : t.run = s.run) (hworkers : t.workers = s.workers.set i v)
    (hok : v.ok pow s.run)
    (hearly : s.run.early = true →
      t.closeCh = false ∧ t.hashRcv = false ∧ t.nonce = false ∧ t.once = .fresh ∧
        v.active = true)
    (hdel : ∀ p, w.delivered = some p → v.delivered = some p) : Inv pow t := by
  refine ⟨?_, ?_, ?_⟩
  · intro x hx
    rw [hworkers] at hx
    rw [hrun]
    rcases List.mem_or_eq_of_mem_set hx with hx | rfl
    · exact inv.workers_ok x hx
    · exact hok
  · intro he
    rw [hrun] at he
    obtain ⟨h1, h2, h3, h4, h5⟩ := hearly he
    refine ⟨h1, h2, h3, h4, ?_⟩
    intro x hx
    rw [hworkers] at hx
    rcases List.mem_or_eq_of_mem_set hx with hx | rfl
    · exact (inv.early he).2.2.2.2 x hx
    · exact h5
  · intro n h hr
    rw [hrun] at hr
    obtain ⟨hs, hex⟩ := inv.late n h hr
    refine ⟨hs, ?_⟩
    rw [hworkers]
    exact exists_mem_set (fun x => x.delivered = some (n, h)) _ i w v hw (hdel _) hex

theorem Inv.not_early_of_inactive {pow : ProofOfWork} {s : State} {i : Nat} {w : Worker}
    (inv : Inv pow s) (hw : s.workers[i]? = some w) (hin : w.active = false) :
    s.run.early = false := by
  cases he : s.run.early with
  | false => rfl
  | true =>
    have := (inv.early he).2.2.2.2 w (mem_of_getElem?_eq hw)
    rw [hin] at this
    cases this

theorem inv_init (pow : ProofOfWork) : Inv pow initState := by
  refine ⟨?_, ?_, ?_⟩
  · intro w hw; simp [initState] at hw
  · intro _; simp [initState]
  · intro n h hr; simp [initState] at hr

theorem inv_stepRun {pow : ProofOfWork} {s t : State} (inv : Inv pow s)
    (h : stepRun s = some t) : Inv pow t := by
  unfold stepRun at h
  cases hr : s.run with
  | start =>
    simp only [hr, Option.some.injEq] at h
    subst h
    have he := inv.early (by rw [hr]; rfl)
    refine ⟨?_, ?_, ?_⟩
    · intro w hw
      have hok := inv.workers_ok w hw
      have hact := he.2.2.2.2 w hw
      rw [hr] at hok
      cases w <;> simp_all [Worker.ok, Worker.active]
    · intro _; exact he
    · intro n h hrun; simp at hrun
  | recvHash =>
    have he := inv.early (by rw [hr]; rfl)
    simp [hr, he.2.1] at h
  | recvNonce hash =>
    have he := inv.early (by rw [hr]; rfl)
    simp [hr, he.2.2.1] at h
  | closing n hash =>
    simp only [hr, Option.some.injEq] at h
    subst h
    obtain ⟨hs, hex⟩ := inv.late n hash (Or.inl hr)
    refine ⟨?_, ?_, ?_⟩
    · intro w hw
      have hok := inv.workers_ok w hw
      rw [hr] at hok
      cases w with
      | scan a c => exact hok
      | found a c => exact hok
      | sendHash a c => exact hok
      | sendNonce a c => exact ⟨hok.1, trivial⟩
      | deferred e => cases e <;> simp_all [Worker.ok, Exit.ok]
      | closing e => cases e <;> simp_all [Worker.ok, Exit.ok]
      | done e => cases e <;> simp_all [Worker.ok, Exit.ok]
      | panicked => trivial
    · intro he; simp [RunPc.early] at he
    · intro n2 h2 hrun
      rcases hrun with hrun | hrun
      · cases hrun
      · cases hrun
        exact ⟨hs, hex⟩
  | returned n hash => simp [hr] at h

theorem inv_stepGetHash {pow : ProofOfWork} {s t : State} (inv : Inv pow s)
    (h : stepGetHash s = some t) : Inv pow t := by
  unfold stepGetHash at h
  cases hg : s.getHash with
  | none => simp [hg] at h
  | some index =>
    simp only [hg] at h
    split_ifs at h with hlt
    simp only [Option.some.injEq] at h
    subst h
    refine ⟨?_, ?_, ?_⟩
    · intro w hw
      rcases List.mem_append.mp hw with hw | hw
      · exact inv.workers_ok w hw
      · simp only [List.mem_singleton] at hw
        subst hw
        exact loopCond_getHashStart index hlt
    · intro he
      obtain ⟨h1, h2, h3, h4, h5⟩ := inv.early he
      refine ⟨h1, h2, h3, h4, ?_⟩
      intro w hw
      rcases List.mem_append.mp hw with hw | hw
      · exact h5 w hw
      · simp only [List.mem_singleton] at hw
        subst hw
        rfl
    · intro n h hr
      obtain ⟨hs, w, hw, hd⟩ := inv.late n h hr
      exact ⟨hs, w, List.mem_append.mpr (Or.inl hw), hd⟩


theorem inv_stepWorker {pow : ProofOfWork} {s t : State} {i : Nat} (inv : Inv pow s)
    (h : stepWorker pow s i = some t) : Inv pow t := by
  unfold stepWorker at h
  cases hw : s.workers[i]? with
  | none => simp [hw] at h
  | some w =>
    have hmem := mem_of_getElem?_eq hw
    have hok := inv.workers_ok w hmem
    cases w with
    | scan nonceIndex currentNonce =>
      have hc : loopCond nonceIndex = true := hok
      simp only [hw, hc, if_true] at h
      by_cases hcl : s.closeCh = true
      · rw [if_pos hcl] at h
        simp only [Option.some.injEq] at h
        subst h
        refine inv.set_worker hw rfl rfl trivial ?_ (fun p hp => by simp [Worker.delivered] at hp)
        intro he
        have := (inv.early he).1
        rw [hcl] at this
        cases this
      · rw [if_neg hcl] at h
        cases hit : iterate pow nonceIndex currentNonce with
        | exhausted => exact absurd hit (iterate_ne_exhausted currentNonce hc)
        | found n hash =>
          simp only [hit, Option.some.injEq] at h
          subst h
          obtain ⟨-, hh, hb⟩ := iterate_found hit
          refine inv.set_worker hw rfl rfl ⟨hh, by simpa [belowTarget] using hb⟩ ?_
            (fun p hp => by simp [Worker.delivered] at hp)
          intro he
          exact ⟨(inv.early he).1, (inv.early he).2.1, (inv.early he).2.2.1,
            (inv.early he).2.2.2.1, rfl⟩
        | next n =>
          simp only [hit, Option.some.injEq] at h
          subst h
          refine inv.set_worker hw rfl rfl hc ?_ (fun p hp => by simp [Worker.delivered] at hp)
          intro he
          exact ⟨(inv.early he).1, (inv.early he).2.1, (inv.early he).2.2.1,
            (inv.early he).2.2.2.1, rfl⟩
    | found currentNonce hash =>
      simp only [hw] at h
      by_cases hcl : s.closeCh = true
      · rw [if_pos hcl] at h
        simp only [Option.some.injEq] at h
        subst h
        refine inv.set_worker hw rfl rfl trivial ?_ (fun p hp => by simp [Worker.delivered] at hp)
        intro he
        have := (inv.early he).1
        rw [hcl] at this
        cases this
      · rw [if_neg hcl] at h
        simp only [Option.some.injEq] at h
        subst h
        refine inv.set_worker hw rfl rfl hok ?_ (fun p hp => by simp [Worker.delivered] at hp)
        intro he
        exact ⟨(inv.early he).1, (inv.early he).2.1, (inv.early he).2.2.1,
          (inv.early he).2.2.2.1, rfl⟩
    | sendHash currentNonce hash =>
      simp only [hw] at h
      by_cases hcl : s.hashRcv = true
      · rw [if_pos hcl] at h
        simp only [Option.some.injEq] at h
        subst h
        refine inv.set_worker hw rfl rfl trivial ?_ (fun p hp => by simp [Worker.delivered] at hp)
        intro he
        have := (inv.early he).2.1
        rw [hcl] at this
        cases this
      · rw [if_neg hcl] at h
        cases hr : s.run with
        | recvHash =>
          simp only [hr, Option.some.injEq] at h
          subst h
          have he := inv.early (by rw [hr]; rfl)
          refine ⟨?_, ?_, ?_⟩
          · intro x hx
            rcases List.mem_or_eq_of_mem_set hx with hx | rfl
            · have hxok := inv.workers_ok x hx
              have hact := he.2.2.2.2 x hx
              rw [hr] at hxok
              cases x <;> simp_all [Worker.ok, Worker.active]
            · exact ⟨hok, rfl⟩
          · intro _
            refine ⟨he.1, he.2.1, he.2.2.1, he.2.2.2.1, ?_⟩
            intro x hx
            rcases List.mem_or_eq_of_mem_set hx with hx | rfl
            · exact he.2.2.2.2 x hx
            · rfl
          · intro n h2 hrun
            simp at hrun
        | start => simp [hr] at h
        | recvNonce _ => simp [hr] at h
        | closing _ _ => simp [hr] at h
        | returned _ _ => simp [hr] at h
    | sendNonce currentNonce hash =>
      simp only [hw] at h
      by_cases hcl : s.nonce = true
      · rw [if_pos hcl] at h
        simp only [Option.some.injEq] at h
        subst h
        refine inv.set_worker hw rfl rfl trivial ?_ (fun p hp => by simp [Worker.delivered] at hp)
        intro he
        have := (inv.early he).2.2.1
        rw [hcl] at this
        cases this
      · rw [if_neg hcl] at h
        cases hr : s.run with
        | recvNonce received =>
          simp only [hr, Option.some.injEq] at h
          subst h
          have he := inv.early (by rw [hr]; rfl)
          have hrec : received = hash := by
            have := hok.2
            rw [hr] at this
            exact this
          subst hrec
          refine ⟨?_, ?_, ?_⟩
          · intro x hx
            rcases List.mem_or_eq_of_mem_set hx with hx | rfl
            · have hxok := inv.workers_ok x hx
              have hact := he.2.2.2.2 x hx
              rw [hr] at hxok
              cases x <;> simp_all [Worker.ok, Worker.active]
            · exact ⟨hok.1, Or.inl rfl⟩
          · intro he2
            simp [RunPc.early] at he2
          · intro n h2 hrun
            rcases hrun with hrun | hrun
            · cases hrun
              exact ⟨hok.1, _, mem_set_self _ hw, rfl⟩
            · cases hrun
        | start => simp [hr] at h
        | recvHash => simp [hr] at h
        | closing _ _ => simp [hr] at h
        | returned _ _ => simp [hr] at h
    | deferred e =>
      simp only [hw] at h
      have hne := inv.not_early_of_inactive hw rfl
      cases ho : s.once with
      | fresh =>
        simp only [ho, Option.some.injEq] at h
        subst h
        exact inv.set_worker hw rfl rfl hok (fun he => by simp [hne] at he)
          (fun p hp => by cases e <;> simp_all [Worker.delivered])
      | running => simp [ho] at h
      | finished =>
        simp only [ho, Option.some.injEq] at h
        subst h
        exact inv.set_worker hw rfl rfl hok (fun he => by simp [hne] at he)
          (fun p hp => by cases e <;> simp_all [Worker.delivered])
    | closing e =>
      simp only [hw, Option.some.injEq] at h
      subst h
      have hne := inv.not_early_of_inactive hw rfl
      exact inv.set_worker hw rfl rfl hok (fun he => by simp [hne] at he)
        (fun p hp => by cases e <;> simp_all [Worker.delivered])
    | done e => simp [hw] at h
    | panicked => simp [hw] at h

theorem inv_step {pow : ProofOfWork} {s t : State} {a : Action} (inv : Inv pow s)
    (h : step pow s a = some t) : Inv pow t := by
  unfold step at h
  split_ifs at h
  cases a with
  | run => exact inv_stepRun inv h
  | getHash => exact inv_stepGetHash inv h
  | worker i => exact inv_stepWorker inv h

theorem inv_exec {pow : ProofOfWork} {s t : State} {sched : List Action} (inv : Inv pow s)
    (h : exec pow s sched = some t) : Inv pow t := by
  induction sched generalizing s with
  | nil =>
    simp only [exec, Option.some.injEq] at h
    subst h
    exact inv
  | cons a rest ih =>
    rw [exec] at h
    cases hs : step pow s a with
    | none => simp [hs] at h
    | some u =>
      simp only [hs] at h
      exact ih (inv_step inv hs) h


theorem getHashChildLoop_delivered {pow : ProofOfWork} {nonceIndex : Int} {fuel : Nat}
    {currentNonce n : Int} {h : List Nat}
    (hd : getHashChildLoop pow nonceIndex fuel currentNonce = some (.delivered n h)) :
    Solves pow n h := by
  induction fuel generalizing currentNonce with
  | zero => simp [getHashChildLoop] at hd
  | succ k ih =>
    rw [getHashChildLoop] at hd
    cases hit : iterate pow nonceIndex currentNonce with
    | exhausted => simp [hit] at hd
    | found m hash =>
      simp only [hit, Option.some.injEq, Exit.delivered.injEq] at hd
      obtain ⟨rfl, rfl⟩ := hd
      obtain ⟨-, hh, hb⟩ := iterate_found hit
      exact ⟨hh, by simpa [belowTarget] using hb⟩
    | next m =>
      simp only [hit] at hd
      exact ih hd

set_option maxRecDepth 100000 in
theorem exec_state0 : exec (NewProofOfWork block0) initState sched0 = some state0 := by
  rfl

/-- C1: in every state the goroutines of `Run` can reach, under every schedule,
a pair `(n, h)` that a worker is sending or has delivered satisfies
`h = SHA-256(prepare(n))` with `h`, read as a big-endian unsigned integer,
strictly below `pow.target`; once a worker has delivered `(n, h)`, `Run` holds
exactly that pair and returns it at its next step (the program not having
crashed), or has returned it; and what `Run` returns is a pair a worker
delivered. The same holds of the loop of
`getHashChild` run on its own from any start index. -/
theorem Run_returns_delivered_solution (pow : ProofOfWork) (sched : List Action) (s : State)
    (hexec : exec pow initState sched = some s) :
    (∀ w ∈ s.workers, ∀ n h,
      w = .sendHash n h ∨ w = .sendNonce n h ∨ w.delivered = some (n, h) →
        h = Sum256 (prepare pow n) ∧ (SetBytes h : Int) < pow.target) ∧
    (∀ w ∈ s.workers, ∀ n h, w.delivered = some (n, h) →
      s.run = .returned n h ∨
        (s.run = .closing n h ∧
          (s.crashed = false → (step pow s .run).map State.run = some (.returned n h)))) ∧
    (∀ n h, s.run = .returned n h →
      h = Sum256 (prepare pow n) ∧ (SetBytes h : Int) < pow.target ∧
        ∃ w ∈ s.workers, w.delivered = some (n, h)) ∧
    (∀ nonceIndex fuel n h, getHashChildLoop pow nonceIndex fuel nonceIndex
        = some (.delivered n h) →
      h = Sum256 (prepare pow n) ∧ (SetBytes h : Int) < pow.target) := by
  have inv := inv_exec (inv_init pow) hexec
  have hdel : ∀ w ∈ s.workers, ∀ n h, w.delivered = some (n, h) →
      Solves pow n h ∧ (s.run = .closing n h ∨ s.run = .returned n h) := by
    intro w hw n h hd
    have hok := inv.workers_ok w hw
    cases w with
    | deferred e =>
      cases e with
      | exhausted => simp [Worker.delivered] at hd
      | cancelled => simp [Worker.delivered] at hd
      | delivered a c =>
        simp only [Worker.delivered, Option.some.injEq, Prod.mk.injEq] at hd
        obtain ⟨rfl, rfl⟩ := hd
        exact hok
    | closing e =>
      cases e with
      | exhausted => simp [Worker.delivered] at hd
      | cancelled => simp [Worker.delivered] at hd
      | delivered a c =>
        simp only [Worker.delivered, Option.some.injEq, Prod.mk.injEq] at hd
        obtain ⟨rfl, rfl⟩ := hd
        exact hok
    | done e =>
      cases e with
      | exhausted => simp [Worker.delivered] at hd
      | cancelled => simp [Worker.delivered] at hd
      | delivered a c =>
        simp only [Worker.delivered, Option.some.injEq, Prod.mk.injEq] at hd
        obtain ⟨rfl, rfl⟩ := hd
        exact hok
    | scan _ _ => simp [Worker.delivered] at hd
    | found _ _ => simp [Worker.delivered] at hd
    | sendHash _ _ => simp [Worker.delivered] at hd
    | sendNonce _ _ => simp [Worker.delivered] at hd
    | panicked => simp [Worker.delivered] at hd
  refine ⟨?_, ?_, ?_, ?_⟩
  · intro w hw n h hcase
    have hok := inv.workers_ok w hw
    rcases hcase with rfl | rfl | hd
    · exact hok
    · exact hok.1
    · exact (hdel w hw n h hd).1
  · intro w hw n h hd
    rcases (hdel w hw n h hd).2 with hr | hr
    · right
      refine ⟨hr, ?_⟩
      intro hcr
      simp [step, hcr, stepRun, hr]
    · exact Or.inl hr
  · intro n h hr
    obtain ⟨hs, hex⟩ := inv.late n h (Or.inr hr)
    exact ⟨hs.1, hs.2, hex⟩
  · intro nonceIndex fuel n h hd
    exact getHashChildLoop_delivered hd

theorem Run_returns_delivered_solution_witness :
    exec (NewProofOfWork block0) initState sched0 = some state0 ∧
    hash0 = Sum256 (prepare (NewProofOfWork block0) 0) ∧
    (SetBytes hash0 : Int) < (NewProofOfWork block0).target ∧
    ∃ w ∈ state0.workers, w.delivered = some (0, hash0) :=
  ⟨exec_state0,
    (Run_returns_delivered_solution (NewProofOfWork block0) sched0 state0 exec_state0).2.2.1
      0 hash0 rfl⟩


/-! ## The dropped error of `binary.Write` -/

/-- C5, as stated, fails: for the payload of `main` (Alice pays Bob)
`binary.Write` returns an error, and yet under the schedule `sched0` the first
worker hashes the header, `Run` returns, and `NewBlock` returns a block with that
hash and nonce 0. -/
theorem NewBlock_returns_after_write_error :
    (binaryWrite [] aliceToBob.fields).2
      = some "binary.Write: some values are not fixed-sized in type *main.Transaction" ∧
    NewBlock 1502978519 aliceToBob [] sched0
      = some ⟨1502978519, aliceToBob, [], hash0, 0⟩ := by
  refine ⟨rfl, ?_⟩
  have h : exec (NewProofOfWork ⟨1502978519, aliceToBob, [], [], 0⟩) initState sched0
      = some state0 := exec_state0
  simp only [NewBlock, h, state0]

/-- C5, amended: serializing a `Transaction` always fails and writes nothing,
and the failure is not propagated: `prepare` has no error result and drops the
error, so whenever `Run` returns, `NewBlock` returns a block, whose hash is the
SHA-256 digest of the header made of PrevBlockHash, Timestamp, targetBits and
nonce, below the target. -/
theorem NewBlock_drops_write_error (now : Int) (data : Transaction) (prev : List Nat)
    (sched : List Action) (blk : Block) (h : NewBlock now data prev sched = some blk) :
    (binaryWrite [] data.fields).2.isSome = true ∧
    (binaryWrite [] data.fields).1 = [] ∧
    blk.Timestamp = now ∧ blk.Data = data ∧ blk.PrevBlockHash = prev ∧
    blk.Hash = Sum256 (prev ++ IntToHex now ++ IntToHex (targetBits : Int) ++ IntToHex blk.Nonce) ∧
    (SetBytes blk.Hash : Int) < 2 ^ 232 := by
  refine ⟨rfl, rfl, ?_⟩
  simp only [NewBlock] at h
  cases hex : exec (NewProofOfWork ⟨now, data, prev, [], 0⟩) initState sched with
  | none => simp [hex] at h
  | some s =>
    have inv := inv_exec (inv_init _) hex
    simp only [hex] at h
    cases hr : s.run with
    | returned nonce hash =>
      simp only [hr, Option.some.injEq] at h
      subst h
      obtain ⟨⟨hh, hb⟩, -⟩ := inv.late nonce hash (Or.inr hr)
      rw [prepare_eq] at hh
      refine ⟨rfl, rfl, rfl, hh, ?_⟩
      have ht : (NewProofOfWork ⟨now, data, prev, [], 0⟩).target = 2 ^ 232 := by
        simp [NewProofOfWork, Lsh, targetBits]
      rw [ht] at hb
      exact hb
    | start => simp [hr] at h
    | recvHash => simp [hr] at h
    | recvNonce _ => simp [hr] at h
    | closing _ _ => simp [hr] at h

theorem NewBlock_drops_write_error_witness :
    (binaryWrite [] aliceToBob.fields).2.isSome = true ∧
    (binaryWrite [] aliceToBob.fields).1 = [] ∧
    (⟨1502978519, aliceToBob, [], hash0, 0⟩ : Block).Timestamp = 1502978519 ∧
    (⟨1502978519, aliceToBob, [], hash0, 0⟩ : Block).Data = aliceToBob ∧
    (⟨1502978519, aliceToBob, [], hash0, 0⟩ : Block).PrevBlockHash = [] ∧
    (⟨1502978519, aliceToBob, [], hash0, 0⟩ : Block).Hash
      = Sum256 ([] ++ IntToHex 1502978519 ++ IntToHex (targetBits : Int)
          ++ IntToHex (⟨1502978519, aliceToBob, [], hash0, 0⟩ : Block).Nonce) ∧
    (SetBytes (⟨1502978519, aliceToBob, [], hash0, 0⟩ : Block).Hash : Int) < 2 ^ 232 :=
  NewBlock_drops_write_error 1502978519 aliceToBob [] sched0 ⟨1502978519, aliceToBob, [], hash0, 0⟩
    (by
      have h : exec (NewProofOfWork ⟨1502978519, aliceToBob, [], [], 0⟩) initState sched0
          = some state0 := exec_state0
      simp only [NewBlock, h, state0])


/-! ## A sender that arrives after the winner -/

theorem exec_append (pow : ProofOfWork) (s : State) (a b : List Action) :
    exec pow s (a ++ b) = (exec pow s a).bind (fun t => exec pow t b) := by
  induction a generalizing s with
  | nil => simp [exec]
  | cons x xs ih =>
    simp only [List.cons_append, exec]
    cases step pow s x with
    | none => simp
    | some t => simp [ih]

theorem wrap64_succ {c : Int} (h1 : -2 ^ 63 ≤ c) (h2 : c < maxNonce) : wrap64 (c + 1) = c + 1 := by
  unfold maxNonce at h2
  unfold wrap64
  omega

theorem crashed_set {s : State} {i : Nat} {v : Worker} (h : s.crashed = false)
    (hv : v ≠ .panicked) : State.crashed { s with workers := s.workers.set i v } = false := by
  simp only [State.crashed, decide_eq_false_iff_not] at h ⊢
  intro hm
  rcases List.mem_or_eq_of_mem_set hm with hm | hm
  · exact h hm
  · exact hv hm.symm

/-- A worker at the head of its loop, left alone while `closeCh` is open, reaches
the first nonce at or above its current one whose digest is below the target. -/
theorem scan_reaches_found (pow : ProofOfWork) (i : Nat) (nonceIndex n : Int)
    (hc : loopCond nonceIndex = true) (hn : n ≤ maxNonce)
    (hb : belowTarget pow (Sum256 (prepare pow n)) = true) :
    ∀ (d : Nat) (s : State) (cur : Int), (n - cur).toNat = d → -2 ^ 63 ≤ cur → cur ≤ n →
      s.workers[i]? = some (.scan nonceIndex cur) → s.closeCh = false → s.crashed = false →
      ∃ k m hash, exec pow s (List.replicate k (.worker i))
        = some { s with workers := s.workers.set i (.found m hash) } := by
  intro d
  induction d with
  | zero =>
    intro s cur hd hlo hle hw hcl hcr
    have hcur : cur = n := by omega
    subst hcur
    refine ⟨1, cur, Sum256 (prepare pow cur), ?_⟩
    have hit : iterate pow nonceIndex cur = .found cur (Sum256 (prepare pow cur)) := by
      simp only [iterate, hc, hb, if_true]
    simp [exec, step, stepWorker, hw, hc, hcl, hcr, hit]
  | succ d ih =>
    intro s cur hd hlo hle hw hcl hcr
    cases hit : iterate pow nonceIndex cur with
    | exhausted => exact absurd hit (iterate_ne_exhausted cur hc)
    | found m hash =>
      refine ⟨1, m, hash, ?_⟩
      simp [exec, step, stepWorker, hw, hc, hcl, hcr, hit]
    | next m =>
      obtain ⟨hm, -⟩ := iterate_next hit
      have hlt : cur < maxNonce := by omega
      rw [wrap64_succ hlo hlt] at hm
      subst hm
      have hilt : i < s.workers.length := by
        rw [List.getElem?_eq_some] at hw
        exact hw.1
      obtain ⟨k, m, hash, hk⟩ :=
        ih { s with workers := s.workers.set i (.scan nonceIndex (cur + 1)) } (cur + 1)
          (by omega) (by omega) (by omega) (by simp [List.getElem?_set, hilt]) hcl
          (crashed_set hcr (by simp))
      refine ⟨k + 1, m, hash, ?_⟩
      simp only [List.replicate_succ, exec, step, hcr, Bool.false_eq_true, if_false]
      have hstep : stepWorker pow s i
          = some { s with workers := s.workers.set i (.scan nonceIndex (cur + 1)) } := by
        simp [stepWorker, hw, hc, hcl, hit]
      rw [hstep]
      simp only [hk, List.set_set]

/-- C7, what the code does: when the first two workers both have a nonce at or
above their start whose digest is below the target, there is a schedule in which
the second worker passes its inner `select` while `closeCh` is still open, the
first worker hands hash and nonce to `Run` and its deferred `once.Do` closes
`hashRcv`, and the second worker then panics by sending on the closed
`hashRcv`, before `Run` has closed `closeCh`. -/
theorem late_sender_panics (pow : ProofOfWork) (n0 n1 : Int)
    (h0 : getHashStart 0 ≤ n0) (hmax0 : n0 ≤ maxNonce)
    (hb0 : belowTarget pow (Sum256 (prepare pow n0)) = true)
    (h1 : getHashStart 1 ≤ n1) (hmax1 : n1 ≤ maxNonce)
    (hb1 : belowTarget pow (Sum256 (prepare pow n1)) = true) :
    ∃ sched s, exec pow initState sched = some s ∧
      s.workers[1]? = some .panicked ∧ s.closeCh = false ∧ s.hashRcv = true ∧
      ∃ n h, s.run = .closing n h ∧ s.workers[0]? = some (.closing (.delivered n h)) := by
  have hs0 : getHashStart 0 = 0 := by decide
  have hs1 : getHashStart 1 = 922337203685477580 := by decide
  have hc0 : loopCond 0 = true := by decide
  have hc1 : loopCond 922337203685477580 = true := by decide
  rw [hs0] at h0
  rw [hs1] at h1
  have e1 : exec pow initState [.run, .getHash, .getHash]
      = some ⟨.recvHash, some 2, [.scan 0 0, .scan 922337203685477580 922337203685477580],
          false, false, false, .fresh⟩ := by
    simp [exec, step, State.crashed, stepRun, stepGetHash, initState, threadCnt, hs0, hs1]
  obtain ⟨k0, m0, g0, e2⟩ := scan_reaches_found pow 0 0 n0 hc0 hmax0 hb0 _
    ⟨.recvHash, some 2, [.scan 0 0, .scan 922337203685477580 922337203685477580],
      false, false, false, .fresh⟩ 0 rfl (by omega) h0 rfl rfl (by decide)
  simp only [List.set_cons_zero] at e2
  have e3 : exec pow ⟨.recvHash, some 2,
        [.found m0 g0, .scan 922337203685477580 922337203685477580], false, false, false, .fresh⟩
        [.worker 0, .worker 0]
      = some ⟨.recvNonce g0, some 2,
          [.sendNonce m0 g0, .scan 922337203685477580 922337203685477580],
          false, false, false, .fresh⟩ := by
    simp [exec, step, State.crashed, stepWorker]
  obtain ⟨k1, m1, g1, e4⟩ := scan_reaches_found pow 1 922337203685477580 n1 hc1 hmax1 hb1 _
    ⟨.recvNonce g0, some 2, [.sendNonce m0 g0, .scan 922337203685477580 922337203685477580],
      false, false, false, .fresh⟩ 922337203685477580 rfl (by omega) h1 rfl rfl (by simp [State.crashed])
  simp only [List.set_cons_succ, List.set_cons_zero] at e4
  have e5 : exec pow ⟨.recvNonce g0, some 2, [.sendNonce m0 g0, .found m1 g1],
        false, false, false, .fresh⟩ [.worker 1, .worker 0, .worker 0, .worker 1]
      = some ⟨.closing m0 g0, some 2, [.closing (.delivered m0 g0), .panicked],
          false, true, false, .running⟩ := by
    simp [exec, step, State.crashed, stepWorker]
  refine ⟨[.run, .getHash, .getHash] ++ (List.replicate k0 (.worker 0) ++
      ([.worker 0, .worker 0] ++ (List.replicate k1 (.worker 1) ++
        [.worker 1, .worker 0, .worker 0, .worker 1]))),
    ⟨.closing m0 g0, some 2, [.closing (.delivered m0 g0), .panicked],
      false, true, false, .running⟩, ?_, ?_⟩
  · rw [exec_append, e1, Option.some_bind, exec_append, e2, Option.some_bind, exec_append, e3,
      Option.some_bind, exec_append, e4, Option.some_bind, e5]
  · exact ⟨rfl, rfl, rfl, m0, g0, rfl, rfl⟩

set_option maxRecDepth 100000 in
theorem belowTarget_block0_worker1 :
    belowTarget (NewProofOfWork block0)
      (Sum256 (prepare (NewProofOfWork block0) 922337203685594421)) = true := by
  rfl

set_option maxRecDepth 100000 in
theorem belowTarget_block0_worker0 :
    belowTarget (NewProofOfWork block0) (Sum256 (prepare (NewProofOfWork block0) 0)) = true := by
  rfl

theorem late_sender_panics_witness :
    ∃ sched s, exec (NewProofOfWork block0) initState sched = some s ∧
      s.workers[1]? = some .panicked ∧ s.closeCh = false ∧ s.hashRcv = true ∧
      ∃ n h, s.run = .closing n h ∧ s.workers[0]? = some (.closing (.delivered n h)) :=
  late_sender_panics (NewProofOfWork block0) 0 922337203685594421 (by decide) (by decide)
    belowTarget_block0_worker0 (by decide) (by decide) belowTarget_block0_worker1


/-! ## The order in which a worker tries the nonces -/

theorem getHashChildLoop_scan (pow : ProofOfWork) (nonceIndex : Int) (fuel : Nat) :
    ∀ cur : Int, -2 ^ 63 ≤ cur → cur ≤ maxNonce →
      ((nonceIndex ≤ cur ∧ ∀ m, nonceIndex ≤ m → m < cur →
          belowTarget pow (Sum256 (prepare pow m)) = false) ∨
        (∀ m, nonceIndex ≤ m → m ≤ maxNonce →
          belowTarget pow (Sum256 (prepare pow m)) = false)) →
      ∀ n h, getHashChildLoop pow nonceIndex fuel cur = some (.delivered n h) →
        (∀ m, nonceIndex ≤ m → m < n → belowTarget pow (Sum256 (prepare pow m)) = false) ∧
        (nonceIndex ≤ n ∨ ∀ m, nonceIndex ≤ m → m ≤ maxNonce →
          belowTarget pow (Sum256 (prepare pow m)) = false) := by
  induction fuel with
  | zero =>
    intro cur _ _ _ n h hd
    simp [getHashChildLoop] at hd
  | succ k ih =>
    intro cur hlo hhi hinv n h hd
    rw [getHashChildLoop] at hd
    cases hit : iterate pow nonceIndex cur with
    | exhausted => simp [hit] at hd
    | found m hash =>
      simp only [hit, Option.some.injEq, Exit.delivered.injEq] at hd
      obtain ⟨rfl, rfl⟩ := hd
      obtain ⟨rfl, rfl, hb⟩ := iterate_found hit
      rcases hinv with ⟨hle, hbelow⟩ | hnone
      · exact ⟨hbelow, Or.inl hle⟩
      · refine ⟨?_, Or.inr hnone⟩
        intro x hx hxm
        exact hnone x hx (by omega)
    | next m =>
      simp only [hit] at hd
      obtain ⟨rfl, hb⟩ := iterate_next hit
      by_cases hmax : cur < maxNonce
      · rw [wrap64_succ hlo hmax] at hd
        refine ih (cur + 1) (by omega) (by omega) ?_ n h hd
        rcases hinv with ⟨hle, hbelow⟩ | hnone
        · left
          refine ⟨by omega, ?_⟩
          intro x hx hxc
          by_cases hxe : x = cur
          · rw [hxe]; exact hb
          · exact hbelow x hx (by omega)
        · exact Or.inr hnone
      · have hcur : cur = maxNonce := by omega
        have hw : wrap64 (cur + 1) = -2 ^ 63 := by
          rw [hcur]; decide
        rw [hw] at hd
        refine ih (-2 ^ 63) (by omega) (by unfold maxNonce; omega) ?_ n h hd
        right
        rcases hinv with ⟨hle, hbelow⟩ | hnone
        · intro x hx hxm
          by_cases hxe : x = cur
          · rw [hxe]; exact hb
          · exact hbelow x hx (by omega)
        · exact hnone

/-- A worker scans upward from its start, up to the wrap-around of its counter:
when the loop of `getHashChild`, started at a 64-bit `nonceIndex`, delivers the
nonce `n`, every nonce `m` with `nonceIndex ≤ m < n` has a digest that is not
below the target; and `nonceIndex ≤ n`, unless no nonce from `nonceIndex` up to
`maxNonce` has a digest below the target (the counter then wrapped around to
the negative numbers before reaching `n`). -/
theorem getHashChildLoop_scans_upward (pow : ProofOfWork) (nonceIndex : Int) (fuel : Nat)
    (n : Int) (h : List Nat) (hlo : -2 ^ 63 ≤ nonceIndex) (hhi : nonceIndex ≤ maxNonce)
    (hd : getHashChildLoop pow nonceIndex fuel nonceIndex = some (.delivered n h)) :
    (∀ m, nonceIndex ≤ m → m < n → belowTarget pow (Sum256 (prepare pow m)) = false) ∧
    (nonceIndex ≤ n ∨ ∀ m, nonceIndex ≤ m → m ≤ maxNonce →
      belowTarget pow (Sum256 (prepare pow m)) = false) :=
  getHashChildLoop_scan pow nonceIndex fuel nonceIndex hlo hhi
    (Or.inl ⟨le_refl _, fun m h1 h2 => by omega⟩) n h hd

end Blockchain
